import Mathlib

set_option maxHeartbeats 1000000

namespace Noise

/-- Wire bytes are modelled as natural numbers (each 0..255 on the wire). -/
abbrev Bytes := List Nat

/-- Modelled from the spec: the external collaborators of the noise handler
(`sha256`, `hkdf`, AES-256-GCM, `Curve.sharedKey`, the protobuf certificate
decoders and the structured-message codec `decodeBinaryNode`) live outside the
core source file and are treated as opaque functions by the spec.  They are
bundled here as abstract function parameters.  `aesEnc key iv aad plaintext`
returns ciphertext with the 16-byte auth tag appended (as `createCipheriv`
followed by `getAuthTag` does); `aesDec key iv aad ciphertext tag` returns
`none` exactly on tag-verification failure (where `createDecipheriv.final`
throws).  `certDetails` is `proto.NoiseCertificate.decode(..).details` and
`certKey` is `proto.NoiseCertificateDetails.decode(..).key`. -/
structure Crypto where
  sha256 : Bytes → Bytes
  hkdf : Bytes → Nat → Bytes → Bytes
  aesEnc : Bytes → Bytes → Bytes → Bytes → Bytes
  aesDec : Bytes → Bytes → Bytes → Bytes → Bytes → Option Bytes
  sharedKey : Bytes → Bytes → Bytes
  certDetails : Bytes → Bytes
  certKey : Bytes → Bytes
  decodeBinaryNode : Bytes → Bytes

/-- The mutable closure state of `makeNoiseHandler` (the variables
`hash`, `salt`, `encKey`, `decKey`, `readCounter`, `writeCounter`,
`isFinished`, `sentIntro`, `inBytes` of the source). -/
structure NoiseState where
  hash : Bytes
  salt : Bytes
  encKey : Bytes
  decKey : Bytes
  readCounter : Nat
  writeCounter : Nat
  isFinished : Bool
  sentIntro : Bool
  inBytes : Bytes
deriving DecidableEq, Repr

/-- Source: `const TAG_LENGTH = 128 >> 3`. -/
def TAG_LENGTH : Nat := 128 >>> 3

/-- Big-endian 4-byte encoding of a value below 2^32, as
`DataView.setUint32` writes it. -/
def be32 (n : Nat) : Bytes :=
  [n / 16777216 % 256, n / 65536 % 256, n / 256 % 256, n % 256]

/-- Source: `generateIV`.  A 12-byte IV: 8 zero bytes followed by the counter
written big-endian by `setUint32(8, counter)`, which takes the counter
modulo 2^32. -/
def generateIV (counter : Nat) : Bytes :=
  [0, 0, 0, 0, 0, 0, 0, 0] ++ be32 (counter % 4294967296)

/-- Index clamping of JavaScript `TypedArray.slice`: negative indices count
from the end, and indices are clamped to the length. -/
def jsIndex (len : Nat) (i : Int) : Nat :=
  if i < 0 then ((len : Int) + i).toNat else min i.toNat len

/-- JavaScript `a.slice(0, stop)`. -/
def jsSliceTo (l : Bytes) (stop : Int) : Bytes :=
  l.take (jsIndex l.length stop)

/-- JavaScript `a.slice(start)`. -/
def jsSliceFrom (l : Bytes) (start : Int) : Bytes :=
  l.drop (jsIndex l.length start)

/-- Source: `authenticate`.  Folds `data` into the transcript hash unless the
handshake is finished. -/
def authenticate (C : Crypto) (s : NoiseState) (data : Bytes) : NoiseState :=
  if s.isFinished then s else { s with hash := C.sha256 (s.hash ++ data) }

/-- Source: `encrypt`.  AES-256-GCM with `encKey`, IV from `writeCounter`,
AAD = current `hash`; returns ciphertext-plus-tag, increments `writeCounter`,
then authenticates its own output. -/
def encrypt (C : Crypto) (s : NoiseState) (plaintext : Bytes) : Bytes × NoiseState :=
  let result := C.aesEnc s.encKey (generateIV s.writeCounter) s.hash plaintext
  let s1 := { s with writeCounter := s.writeCounter + 1 }
  (result, authenticate C s1 result)

/-- Source: `decrypt`.  IV counter is `readCounter` if finished else
`writeCounter`; the input is split into body and trailing tag by
`slice(0, len - TAG_LENGTH)` and `slice(len - TAG_LENGTH)`; on success the
selected counter is incremented and the original ciphertext is
authenticated.  `none` models the exception thrown on tag-verification
failure, which occurs before any state mutation. -/
def decrypt (C : Crypto) (s : NoiseState) (ciphertext : Bytes) : Option (Bytes × NoiseState) :=
  let iv := generateIV (if s.isFinished then s.readCounter else s.writeCounter)
  let enc := jsSliceTo ciphertext ((ciphertext.length : Int) - (TAG_LENGTH : Int))
  let tag := jsSliceFrom ciphertext ((ciphertext.length : Int) - (TAG_LENGTH : Int))
  match C.aesDec s.decKey iv s.hash enc tag with
  | none => none
  | some result =>
    let s1 := if s.isFinished then { s with readCounter := s.readCounter + 1 }
              else { s with writeCounter := s.writeCounter + 1 }
    some (result, authenticate C s1 ciphertext)

/-- Source: `localHKDF`.  64 bytes of HKDF output with the current salt and
empty info, split as `slice(0, 32)` and `slice(32)`. -/
def localHKDF (C : Crypto) (s : NoiseState) (data : Bytes) : Bytes × Bytes :=
  let key := C.hkdf data 64 s.salt
  (key.take 32, key.drop 32)

/-- Source: `mixIntoKey`.  First half of the HKDF output becomes the new salt,
the second half both keys; both counters reset to 0. -/
def mixIntoKey (C : Crypto) (s : NoiseState) (data : Bytes) : NoiseState :=
  let wr := localHKDF C s data
  { s with salt := wr.1, encKey := wr.2, decKey := wr.2, readCounter := 0, writeCounter := 0 }

/-- Source: `finishInit`.  HKDF on empty input key material; first half
becomes `encKey`, second half `decKey`; hash cleared; counters reset;
`isFinished` set. -/
def finishInit (C : Crypto) (s : NoiseState) : NoiseState :=
  let wr := localHKDF C s []
  { s with encKey := wr.1, decKey := wr.2, hash := [], readCounter := 0,
           writeCounter := 0, isFinished := true }

/-- Source: the initialization code of `makeNoiseHandler`.  `noiseMode` and
`header` stand for the constants `NOISE_MODE` and `NOISE_WA_HEADER`, which
are imported from outside the core file; `publicKey` is the local static
public key. -/
def makeNoiseHandler (C : Crypto) (noiseMode header publicKey : Bytes) : NoiseState :=
  let hash0 := if noiseMode.length = 32 then noiseMode else C.sha256 noiseMode
  let s : NoiseState :=
    { hash := hash0, salt := hash0, encKey := hash0, decKey := hash0,
      readCounter := 0, writeCounter := 0, isFinished := false,
      sentIntro := false, inBytes := [] }
  authenticate C (authenticate C s header) publicKey

/-- The `serverHello` part of a `proto.HandshakeMessage`. -/
structure HandshakeMsg where
  ephemeral : Bytes
  staticEnc : Bytes
  payload : Bytes

/-- A Curve25519 key pair, `{ public, private }` in the source. -/
structure KeyPair where
  pub : Bytes
  priv : Bytes

/-- The fatal errors the handler can raise. -/
inductive NoiseError where
  | aeadFail
  | certMismatch
deriving DecidableEq, Repr

/-- Source: `processHandshake`.  The fixed sequence: authenticate the peer
ephemeral, mix DH(static, ephemeral), decrypt the peer static key, mix
DH(static, decStatic), decrypt and parse the certificate, compare the
declared key byte-exactly, encrypt the local ephemeral public key, mix
DH(ephemeral, peer ephemeral), and return the encrypted key. -/
def processHandshake (C : Crypto) (privateKey : Bytes) (s0 : NoiseState)
    (msg : HandshakeMsg) (noiseKey : KeyPair) : Except NoiseError (Bytes × NoiseState) :=
  let sa := authenticate C s0 msg.ephemeral
  let sb := mixIntoKey C sa (C.sharedKey privateKey msg.ephemeral)
  match decrypt C sb msg.staticEnc with
  | none => .error .aeadFail
  | some (decStaticContent, s2) =>
    let s3 := mixIntoKey C s2 (C.sharedKey privateKey decStaticContent)
    match decrypt C s3 msg.payload with
    | none => .error .aeadFail
    | some (certDecoded, s4) =>
      let ck := C.certKey (C.certDetails certDecoded)
      if decStaticContent ≠ ck then .error .certMismatch
      else
        let ke := encrypt C s4 noiseKey.pub
        let s5 := mixIntoKey C ke.2 (C.sharedKey noiseKey.priv msg.ephemeral)
        .ok (ke.1, s5)

/-- The three length-prefix bytes followed by the payload:
`writeUInt8(len >> 16)` then `writeUInt16BE(65535 & len)`. -/
def frameBytes (len : Nat) (d : Bytes) : Bytes :=
  (len >>> 16) :: (len / 256 % 256) :: (len % 256) :: d

/-- Source: `encodeFrame`.  Encrypts the payload once finished, emits the
intro header on the first frame only, then the 3-byte big-endian length
prefix and the payload.  `Buffer.writeUInt8` throws a `RangeError` when
`data.byteLength >> 16` exceeds 255; this happens after the intro flag and
the encryption already mutated the state, so the state is returned in both
cases and the frame is `none` on the range error. -/
def encodeFrame (C : Crypto) (header : Bytes) (s : NoiseState) (data : Bytes) :
    Option Bytes × NoiseState :=
  let ds := if s.isFinished then encrypt C s data else (data, s)
  let intro := if ds.2.sentIntro then [] else header
  let s2 := { ds.2 with sentIntro := true }
  if 255 < ds.1.length >>> 16 then (none, s2)
  else (some (intro ++ frameBytes ds.1.length ds.1), s2)

/-- Source: the `getBytesSize` helper of `decodeFrame`:
`(readUInt8() << 16) | readUInt16BE(1)` when at least 3 bytes are buffered. -/
def getBytesSize : Bytes → Option Nat
  | b0 :: b1 :: b2 :: _ => some (b0 * 65536 + b1 * 256 + b2)
  | _ => none

/-- Source: the `while(size && inBytes.length >= size + 3)` loop of
`decodeFrame`.  Returns the list of dispatched frames (each passed through
`decrypt` and `decodeBinaryNode` once finished), the final state, and a flag
recording whether a decrypt threw mid-loop (aborting the loop after the
frames already dispatched). -/
def decodeLoop (C : Crypto) (s : NoiseState) : List Bytes × NoiseState × Bool :=
  match getBytesSize s.inBytes with
  | none => ([], s, false)
  | some size =>
    if hg : size ≠ 0 ∧ size + 3 ≤ s.inBytes.length then
      let frame := (s.inBytes.take (size + 3)).drop 3
      let s1 := { s with inBytes := s.inBytes.drop (size + 3) }
      if s.isFinished then
        match hd : decrypt C s1 frame with
        | none => ([], s1, true)
        | some rs =>
          let r := decodeLoop C rs.2
          (C.decodeBinaryNode rs.1 :: r.1, r.2.1, r.2.2)
      else
        let r := decodeLoop C s1
        (frame :: r.1, r.2.1, r.2.2)
    else ([], s, false)
termination_by s.inBytes.length
decreasing_by
  · simp only [decrypt, authenticate] at hd
    rcases hr : C.aesDec s1.decKey (generateIV (if s1.isFinished then s1.readCounter else s1.writeCounter)) s1.hash (jsSliceTo frame ((frame.length : Int) - (TAG_LENGTH : Int))) (jsSliceFrom frame ((frame.length : Int) - (TAG_LENGTH : Int))) with _ | r
    · rw [hr] at hd; simp at hd
    · rw [hr] at hd
      simp only [Option.some.injEq] at hd
      have h2 : rs.2.inBytes = s1.inBytes := by
        rw [← hd]
        by_cases hf : (if s1.isFinished then { s1 with readCounter := s1.readCounter + 1 }
            else { s1 with writeCounter := s1.writeCounter + 1 } : NoiseState).isFinished
        · simp [hf]
          split <;> rfl
        · simp only [Bool.not_eq_true] at hf
          simp [hf]
          split <;> rfl
      rw [h2]
      simp only [s1, List.length_drop]
      omega
  · simp only [s1, List.length_drop]
    omega

/-- Source: `decodeFrame`.  Appends the new bytes to the inbound accumulator
and drains all complete frames. -/
def decodeFrame (C : Crypto) (s : NoiseState) (newData : Bytes) :
    List Bytes × NoiseState × Bool :=
  decodeLoop C { s with inBytes := s.inBytes ++ newData }

/-- A driver feeding successive byte chunks to `decodeFrame`, collecting all
dispatched frames in order (the error flags are joined). -/
def feedAll (C : Crypto) (s : NoiseState) : List Bytes → List Bytes × NoiseState × Bool
  | [] => ([], s, false)
  | c :: cs =>
    let r := decodeFrame C s c
    let r2 := feedAll C r.2.1 cs
    (r.1 ++ r2.1, r2.2.1, r.2.2 || r2.2.2)

/-- The operations a caller can perform on the handler state while the
connection lives (the claims quantify over sequences of these). -/
inductive NoiseOp where
  | auth (data : Bytes)
  | enc (plaintext : Bytes)
  | dec (ciphertext : Bytes)
  | mix (material : Bytes)
  | finish
deriving DecidableEq, Repr

/-- State transition of a single operation.  A `dec` whose tag verification
fails throws before any state mutation, so it leaves the state unchanged. -/
def applyOp (C : Crypto) (s : NoiseState) : NoiseOp → NoiseState
  | .auth d => authenticate C s d
  | .enc p => (encrypt C s p).2
  | .dec ct =>
    match decrypt C s ct with
    | some rs => rs.2
    | none => s
  | .mix m => mixIntoKey C s m
  | .finish => finishInit C s

/-- Runs a sequence of operations from a state. -/
def runOps (C : Crypto) (s : NoiseState) : List NoiseOp → NoiseState
  | [] => s
  | op :: rest => runOps C (applyOp C s op) rest

/-- One successful AEAD invocation observed along a trace: the key-mix epoch
it happened in, the `isFinished` flag, the direction (`isEnc`), the AEAD key
and the nonce counter value it consumed. -/
structure Ev where
  epoch : Nat
  fin : Bool
  isEnc : Bool
  key : Bytes
  ctr : Nat
deriving DecidableEq, Repr

/-- The successful encrypt/decrypt events of a trace, each annotated with the
key-mix epoch (bumped at each `mixIntoKey` and at `finishInit`), the key and
the counter value the operation consumed. -/
def events (C : Crypto) (s : NoiseState) (ep : Nat) : List NoiseOp → List Ev
  | [] => []
  | op :: rest =>
    let cur : List Ev :=
      match op with
      | .enc _ => [⟨ep, s.isFinished, true, s.encKey, s.writeCounter⟩]
      | .dec ct =>
        if (decrypt C s ct).isSome then
          [⟨ep, s.isFinished, false, s.decKey,
            if s.isFinished then s.readCounter else s.writeCounter⟩]
        else []
      | _ => []
    let ep1 : Nat :=
      match op with
      | .mix _ => ep + 1
      | .finish => ep + 1
      | _ => ep
    cur ++ events C (applyOp C s op) ep1 rest

/-- A concrete executable instance of the abstract collaborators, used to
evaluate the development on concrete inputs.  The AEAD appends a 16-byte tag
determined by key, IV and AAD, and verifies exactly that tag. -/
def tag16 (k iv aad : Bytes) : Bytes :=
  List.replicate 16 ((k.length + 3 * iv.length + 5 * aad.length) % 256)

/-- Concrete collaborator instance for evaluating the model. -/
def testCrypto : Crypto where
  sha256 := fun l => (List.range 32).map (fun i => (i + l.length) % 256)
  hkdf := fun ikm n salt => (List.range n).map (fun i => (i + ikm.length + 2 * salt.length) % 256)
  aesEnc := fun k iv aad pt => pt ++ tag16 k iv aad
  aesDec := fun k iv aad enc tag => if tag = tag16 k iv aad then some enc else none
  sharedKey := fun a b => (a ++ b).take 32
  certDetails := fun l => l
  certKey := fun l => l
  decodeBinaryNode := fun l => l.length % 256 :: l

/-- A concrete pre-handshake state (intro already sent, keys equal as in any
reachable pre-finish state). -/
def sPre : NoiseState :=
  { hash := [1], salt := [2], encKey := [3], decKey := [3],
    readCounter := 0, writeCounter := 0, isFinished := false,
    sentIntro := true, inBytes := [] }

/-- A concrete post-handshake state with distinct directional keys. -/
def sFin : NoiseState :=
  { hash := [], salt := [2], encKey := [3], decKey := [4],
    readCounter := 5, writeCounter := 7, isFinished := true,
    sentIntro := true, inBytes := [] }

lemma authenticate_finished (C : Crypto) (s : NoiseState) (d : Bytes)
    (h : s.isFinished = true) : authenticate C s d = s := by
  simp [authenticate, h]

lemma authenticate_fields (C : Crypto) (s : NoiseState) (d : Bytes) :
    (authenticate C s d).encKey = s.encKey ∧ (authenticate C s d).decKey = s.decKey ∧
    (authenticate C s d).salt = s.salt ∧
    (authenticate C s d).readCounter = s.readCounter ∧
    (authenticate C s d).writeCounter = s.writeCounter ∧
    (authenticate C s d).isFinished = s.isFinished ∧
    (authenticate C s d).sentIntro = s.sentIntro ∧
    (authenticate C s d).inBytes = s.inBytes ∧
    (authenticate C s d).hash = (if s.isFinished then s.hash else C.sha256 (s.hash ++ d)) := by
  cases hf : s.isFinished <;> simp [authenticate, hf]

lemma encrypt_snd (C : Crypto) (s : NoiseState) (p : Bytes) :
    (encrypt C s p).2 = authenticate C { s with writeCounter := s.writeCounter + 1 }
      (C.aesEnc s.encKey (generateIV s.writeCounter) s.hash p) := rfl

lemma encrypt_fields (C : Crypto) (s : NoiseState) (p : Bytes) :
    (encrypt C s p).1 = C.aesEnc s.encKey (generateIV s.writeCounter) s.hash p ∧
    (encrypt C s p).2.encKey = s.encKey ∧ (encrypt C s p).2.decKey = s.decKey ∧
    (encrypt C s p).2.salt = s.salt ∧
    (encrypt C s p).2.writeCounter = s.writeCounter + 1 ∧
    (encrypt C s p).2.readCounter = s.readCounter ∧
    (encrypt C s p).2.isFinished = s.isFinished ∧
    (encrypt C s p).2.sentIntro = s.sentIntro ∧
    (encrypt C s p).2.inBytes = s.inBytes ∧
    (encrypt C s p).2.hash = (if s.isFinished then s.hash
      else C.sha256 (s.hash ++ C.aesEnc s.encKey (generateIV s.writeCounter) s.hash p)) := by
  cases hf : s.isFinished <;> simp [encrypt, authenticate, hf]

lemma decrypt_eq_some (C : Crypto) (s : NoiseState) (ct pt : Bytes) (s' : NoiseState)
    (h : decrypt C s ct = some (pt, s')) :
    C.aesDec s.decKey (generateIV (if s.isFinished then s.readCounter else s.writeCounter)) s.hash
        (jsSliceTo ct ((ct.length : Int) - (TAG_LENGTH : Int)))
        (jsSliceFrom ct ((ct.length : Int) - (TAG_LENGTH : Int))) = some pt ∧
    s' = authenticate C (if s.isFinished then { s with readCounter := s.readCounter + 1 }
          else { s with writeCounter := s.writeCounter + 1 }) ct := by
  simp only [decrypt] at h
  rcases hr : C.aesDec s.decKey
      (generateIV (if s.isFinished then s.readCounter else s.writeCounter)) s.hash
      (jsSliceTo ct ((ct.length : Int) - (TAG_LENGTH : Int)))
      (jsSliceFrom ct ((ct.length : Int) - (TAG_LENGTH : Int))) with _ | r
  · rw [hr] at h; simp at h
  · rw [hr] at h
    simp only [Option.some.injEq, Prod.mk.injEq] at h
    obtain ⟨h1, h2⟩ := h
    subst h1
    exact ⟨rfl, h2.symm⟩

lemma decrypt_fields (C : Crypto) (s : NoiseState) (ct pt : Bytes) (s' : NoiseState)
    (h : decrypt C s ct = some (pt, s')) :
    s'.encKey = s.encKey ∧ s'.decKey = s.decKey ∧ s'.salt = s.salt ∧
    s'.isFinished = s.isFinished ∧ s'.sentIntro = s.sentIntro ∧ s'.inBytes = s.inBytes ∧
    (s.isFinished = true → s'.readCounter = s.readCounter + 1 ∧
      s'.writeCounter = s.writeCounter ∧ s'.hash = s.hash) ∧
    (s.isFinished = false → s'.writeCounter = s.writeCounter + 1 ∧
      s'.readCounter = s.readCounter ∧ s'.hash = C.sha256 (s.hash ++ ct)) := by
  have h2 := (decrypt_eq_some C s ct pt s' h).2
  subst h2
  cases hf : s.isFinished <;> simp [authenticate, hf]

lemma mixIntoKey_fields (C : Crypto) (s : NoiseState) (m : Bytes) :
    (mixIntoKey C s m).salt = (C.hkdf m 64 s.salt).take 32 ∧
    (mixIntoKey C s m).encKey = (C.hkdf m 64 s.salt).drop 32 ∧
    (mixIntoKey C s m).decKey = (C.hkdf m 64 s.salt).drop 32 ∧
    (mixIntoKey C s m).readCounter = 0 ∧ (mixIntoKey C s m).writeCounter = 0 ∧
    (mixIntoKey C s m).isFinished = s.isFinished ∧
    (mixIntoKey C s m).sentIntro = s.sentIntro ∧
    (mixIntoKey C s m).inBytes = s.inBytes ∧
    (mixIntoKey C s m).hash = s.hash := by
  simp [mixIntoKey, localHKDF]

lemma finishInit_fields (C : Crypto) (s : NoiseState) :
    (finishInit C s).encKey = (C.hkdf [] 64 s.salt).take 32 ∧
    (finishInit C s).decKey = (C.hkdf [] 64 s.salt).drop 32 ∧
    (finishInit C s).hash = [] ∧ (finishInit C s).salt = s.salt ∧
    (finishInit C s).readCounter = 0 ∧ (finishInit C s).writeCounter = 0 ∧
    (finishInit C s).isFinished = true ∧
    (finishInit C s).sentIntro = s.sentIntro ∧
    (finishInit C s).inBytes = s.inBytes := by
  simp [finishInit, localHKDF]

lemma applyOp_fin_mono (C : Crypto) (s : NoiseState) (op : NoiseOp)
    (h : s.isFinished = true) : (applyOp C s op).isFinished = true := by
  cases op with
  | auth d => simp [applyOp, authenticate, h]
  | enc p => rw [applyOp, (encrypt_fields C s p).2.2.2.2.2.2.1]; exact h
  | dec ct =>
    simp only [applyOp]
    rcases hr : decrypt C s ct with _ | ⟨pt, s'⟩
    · exact h
    · rw [(decrypt_fields C s ct pt s' hr).2.2.2.1]; exact h
  | mix m => rw [applyOp, (mixIntoKey_fields C s m).2.2.2.2.2.1]; exact h
  | finish => exact (finishInit_fields C s).2.2.2.2.2.2.1

lemma runOps_fin_mono (C : Crypto) (ops : List NoiseOp) : ∀ s : NoiseState,
    s.isFinished = true → (runOps C s ops).isFinished = true := by
  induction ops with
  | nil => intro s h; exact h
  | cons op rest ih => intro s h; exact ih (applyOp C s op) (applyOp_fin_mono C s op h)

/-- C10: `generateIV` encodes only the low 32 bits of the counter into the
12-byte IV (first 8 bytes zero, last 4 bytes the counter modulo 2^32,
big-endian), so any two counter values congruent modulo 2^32 yield an
identical nonce. -/
theorem generateIV_spec (c1 c2 : Nat) (h : c1 % 4294967296 = c2 % 4294967296) :
    generateIV c1 = generateIV c2 ∧ (generateIV c1).length = 12 ∧
    (generateIV c1).take 8 = List.replicate 8 0 ∧
    (generateIV c1).drop 8 = be32 (c1 % 4294967296) := by
  refine ⟨by simp [generateIV, h], ?_, ?_, ?_⟩ <;> simp [generateIV, be32, List.replicate]

/-- Witness for C10 at counters 1 and 2^32 + 1. -/
theorem generateIV_spec_witness :
    1 % 4294967296 = 4294967297 % 4294967296 ∧ generateIV 1 = generateIV 4294967297 :=
  ⟨by decide, (generateIV_spec 1 4294967297 (by decide)).1⟩

/-- C7: `finishInit` derives 64 bytes via HKDF with the current salt and empty
input key material, assigns the first 32 bytes to `encKey` and the last 32
to `decKey`, clears the hash, resets both counters to 0 and sets the
finished flag; afterwards `authenticate` is permanently a no-op, whatever
operations follow. -/
theorem finishInit_spec (C : Crypto) (s : NoiseState) :
    (finishInit C s).encKey = (C.hkdf [] 64 s.salt).take 32 ∧
    (finishInit C s).decKey = (C.hkdf [] 64 s.salt).drop 32 ∧
    (finishInit C s).hash = [] ∧
    (finishInit C s).readCounter = 0 ∧
    (finishInit C s).writeCounter = 0 ∧
    (finishInit C s).isFinished = true ∧
    ∀ ops d, authenticate C (runOps C (finishInit C s) ops) d
      = runOps C (finishInit C s) ops := by
  obtain ⟨h1, h2, h3, _, h4, h5, h6, _⟩ := finishInit_fields C s
  exact ⟨h1, h2, h3, h4, h5, h6, fun ops d =>
    authenticate_finished C _ d (runOps_fin_mono C ops _ h6)⟩

/-- C8: a `decrypt` whose tag verification fails leaves the symmetric state
completely unchanged: the failure is raised before the counter increment and
the `authenticate` call. -/
theorem decrypt_fail_atomic (C : Crypto) (s : NoiseState) (ct : Bytes)
    (h : decrypt C s ct = none) : applyOp C s (.dec ct) = s := by
  simp [applyOp, h]

/-- Witness for C8 on a concrete failing ciphertext. -/
theorem decrypt_fail_atomic_witness :
    decrypt testCrypto sFin [1, 2, 3] = none ∧
    applyOp testCrypto sFin (.dec [1, 2, 3]) = sFin :=
  ⟨by decide, decrypt_fail_atomic testCrypto sFin [1, 2, 3] (by decide)⟩

/-- C5: `decrypt` selects `readCounter` when finished and `writeCounter`
otherwise, splits the input into body and trailing 16-byte tag, feeds the
AEAD with `decKey`, the IV of the selected counter and the current hash as
AAD, increments exactly the selected counter on success, and then
authenticates the original encrypted input bytes (not the plaintext). -/
theorem decrypt_spec (C : Crypto) (s : NoiseState) (ct pt : Bytes) (s' : NoiseState)
    (h : decrypt C s ct = some (pt, s')) :
    C.aesDec s.decKey (generateIV (if s.isFinished then s.readCounter else s.writeCounter)) s.hash
        (jsSliceTo ct ((ct.length : Int) - (TAG_LENGTH : Int)))
        (jsSliceFrom ct ((ct.length : Int) - (TAG_LENGTH : Int))) = some pt ∧
    (s.isFinished = true → s'.readCounter = s.readCounter + 1 ∧
      s'.writeCounter = s.writeCounter) ∧
    (s.isFinished = false → s'.writeCounter = s.writeCounter + 1 ∧
      s'.readCounter = s.readCounter) ∧
    s'.hash = (if s.isFinished then s.hash else C.sha256 (s.hash ++ ct)) ∧
    s'.encKey = s.encKey ∧ s'.decKey = s.decKey ∧ s'.isFinished = s.isFinished ∧
    (TAG_LENGTH ≤ ct.length →
      jsSliceTo ct ((ct.length : Int) - (TAG_LENGTH : Int)) = ct.take (ct.length - TAG_LENGTH) ∧
      jsSliceFrom ct ((ct.length : Int) - (TAG_LENGTH : Int)) = ct.drop (ct.length - TAG_LENGTH) ∧
      (jsSliceFrom ct ((ct.length : Int) - (TAG_LENGTH : Int))).length = TAG_LENGTH ∧
      jsSliceTo ct ((ct.length : Int) - (TAG_LENGTH : Int))
        ++ jsSliceFrom ct ((ct.length : Int) - (TAG_LENGTH : Int)) = ct) := by
  obtain ⟨ha, hf⟩ := decrypt_eq_some C s ct pt s' h
  obtain ⟨_, _, _, hfin, _, _, hT, hF⟩ := decrypt_fields C s ct pt s' h
  refine ⟨ha, fun ht => ⟨(hT ht).1, (hT ht).2.1⟩, fun hn => ⟨(hF hn).1, (hF hn).2.1⟩,
    ?_, by tauto, by tauto, hfin, ?_⟩
  · cases hfc : s.isFinished
    · simp only [hfc, if_neg Bool.false_ne_true]; exact (hF hfc).2.2
    · simp only [hfc, if_pos rfl]; exact (hT hfc).2.2
  · intro hlen
    have hidx : jsIndex ct.length ((ct.length : Int) - (TAG_LENGTH : Int))
        = ct.length - TAG_LENGTH := by
      simp only [jsIndex]
      rw [if_neg (by omega)]
      omega
    refine ⟨by simp [jsSliceTo, hidx], by simp [jsSliceFrom, hidx], ?_, ?_⟩
    · simp only [jsSliceFrom, hidx, List.length_drop]; omega
    · simp [jsSliceTo, jsSliceFrom, hidx]

lemma shiftRight16 (n : Nat) : n >>> 16 = n / 65536 := by
  rw [Nat.shiftRight_eq_div_pow]

lemma testCrypto_aesEnc_len (k iv aad pt : Bytes) :
    (testCrypto.aesEnc k iv aad pt).length = pt.length + 16 := by
  simp [testCrypto, tag16]

lemma applyOp_dec_some (C : Crypto) (s : NoiseState) (ct pt : Bytes) (s' : NoiseState)
    (h : decrypt C s ct = some (pt, s')) : applyOp C s (.dec ct) = s' := by
  simp [applyOp, h]

lemma applyOp_dec_none (C : Crypto) (s : NoiseState) (ct : Bytes)
    (h : decrypt C s ct = none) : applyOp C s (.dec ct) = s := by
  simp [applyOp, h]

lemma getBytesSize_frameBytes (n : Nat) (x : Bytes) :
    getBytesSize (frameBytes n x) = some n := by
  simp only [frameBytes, getBytesSize, Option.some.injEq, shiftRight16]
  omega

lemma frameBytes_length (n : Nat) (x : Bytes) :
    (frameBytes n x).length = x.length + 3 := by
  simp [frameBytes]

lemma frameBytes_drop_three (n : Nat) (x : Bytes) : (frameBytes n x).drop 3 = x := rfl

/-- C9: `encodeFrame` raises the `writeUInt8` range error exactly when the
on-wire payload (ciphertext plus tag once finished, raw payload otherwise)
is 2^24 bytes or longer; for all smaller payloads the 3-byte big-endian
prefix decodes to exactly the on-wire payload length. -/
theorem encodeFrame_length_guard (C : Crypto) (header : Bytes) (s : NoiseState) (P : Bytes)
    (hlen : ∀ k iv aad pt, (C.aesEnc k iv aad pt).length = pt.length + 16) :
    (16777216 ≤ (if s.isFinished then P.length + 16 else P.length) →
      (encodeFrame C header s P).1 = none) ∧
    ((if s.isFinished then P.length + 16 else P.length) < 16777216 →
      ∃ d, (encodeFrame C header s P).1 = some ((if s.sentIntro then [] else header) ++ d) ∧
        getBytesSize d = some (if s.isFinished then P.length + 16 else P.length) ∧
        d.length = (if s.isFinished then P.length + 16 else P.length) + 3 ∧
        d.drop 3 = (if s.isFinished then (encrypt C s P).1 else P)) := by
  have hds1 : (if s.isFinished then encrypt C s P else (P, s)).1.length
      = (if s.isFinished then P.length + 16 else P.length) := by
    cases hf : s.isFinished
    · simp
    · have h1 : (encrypt C s P).1.length = P.length + 16 := by
        rw [(encrypt_fields C s P).1, hlen]
      simp [h1]
  have hds2 : (if s.isFinished then encrypt C s P else (P, s)).2.sentIntro = s.sentIntro := by
    cases hf : s.isFinished
    · simp
    · simp [(encrypt_fields C s P).2.2.2.2.2.2.2.1]
  constructor
  · intro hge
    simp only [encodeFrame]
    rw [if_pos (by rw [shiftRight16, hds1]; omega)]
  · intro hlt
    refine ⟨frameBytes (if s.isFinished then encrypt C s P else (P, s)).1.length
      (if s.isFinished then encrypt C s P else (P, s)).1, ?_, ?_, ?_, ?_⟩
    · simp only [encodeFrame]
      rw [if_neg (by rw [shiftRight16, hds1]; omega), hds2]
    · rw [getBytesSize_frameBytes, hds1]
    · rw [frameBytes_length, hds1]
    · rw [frameBytes_drop_three]
      cases hf : s.isFinished
      · simp
      · simp

/-- Witness for C9: a 2-byte payload in the pre-finish state gets the exact
3-byte length prefix. -/
theorem encodeFrame_length_guard_witness :
    (∀ k iv aad pt, (testCrypto.aesEnc k iv aad pt).length = pt.length + 16) ∧
    ((16777216 ≤ (if sPre.isFinished then ([1, 2] : Bytes).length + 16 else ([1, 2] : Bytes).length) →
      (encodeFrame testCrypto [87, 65] sPre [1, 2]).1 = none) ∧
    ((if sPre.isFinished then ([1, 2] : Bytes).length + 16 else ([1, 2] : Bytes).length) < 16777216 →
      ∃ d, (encodeFrame testCrypto [87, 65] sPre [1, 2]).1
          = some ((if sPre.sentIntro then [] else [87, 65]) ++ d) ∧
        getBytesSize d = some (if sPre.isFinished then ([1, 2] : Bytes).length + 16 else ([1, 2] : Bytes).length) ∧
        d.length = (if sPre.isFinished then ([1, 2] : Bytes).length + 16 else ([1, 2] : Bytes).length) + 3 ∧
        d.drop 3 = (if sPre.isFinished then (encrypt testCrypto sPre [1, 2]).1 else [1, 2]))) :=
  ⟨testCrypto_aesEnc_len,
    encodeFrame_length_guard testCrypto [87, 65] sPre [1, 2] testCrypto_aesEnc_len⟩

/-- C6: when the decrypted static key differs byte-exactly from the key
declared in the decrypted certificate, `processHandshake` fails with the
certificate-mismatch error and returns no response; when they agree it
returns the encrypted local ephemeral public key produced by the fixed
mix/decrypt/encrypt sequence of the handshake. -/
theorem processHandshake_spec (C : Crypto) (privateKey : Bytes) (s0 : NoiseState)
    (msg : HandshakeMsg) (noiseKey : KeyPair) (ds cd : Bytes) (s2 s4 : NoiseState)
    (h1 : decrypt C (mixIntoKey C (authenticate C s0 msg.ephemeral)
        (C.sharedKey privateKey msg.ephemeral)) msg.staticEnc = some (ds, s2))
    (h2 : decrypt C (mixIntoKey C s2 (C.sharedKey privateKey ds)) msg.payload
        = some (cd, s4)) :
    (ds ≠ C.certKey (C.certDetails cd) →
      processHandshake C privateKey s0 msg noiseKey = .error .certMismatch) ∧
    (ds = C.certKey (C.certDetails cd) →
      processHandshake C privateKey s0 msg noiseKey =
        .ok ((encrypt C s4 noiseKey.pub).1,
          mixIntoKey C (encrypt C s4 noiseKey.pub).2
            (C.sharedKey noiseKey.priv msg.ephemeral))) := by
  constructor <;> intro hck <;> simp only [processHandshake, h1, h2] <;> simp [hck]

/-- Concrete handshake intermediate state after the first key mix. -/
def hsS1 : NoiseState :=
  mixIntoKey testCrypto (authenticate testCrypto sPre [7]) (testCrypto.sharedKey [5] [7])

/-- Concrete handshake message whose two ciphertexts decrypt successfully
under `testCrypto` and whose certificate key matches the static key. -/
def hsMsg : HandshakeMsg :=
  ⟨[7], 11 :: List.replicate 16 228, 11 :: List.replicate 16 228⟩

/-- Concrete state after decrypting the peer static key. -/
def hsS2 : NoiseState := ((decrypt testCrypto hsS1 hsMsg.staticEnc).getD ([], hsS1)).2

/-- Concrete state after decrypting the certificate payload. -/
def hsS4 : NoiseState :=
  ((decrypt testCrypto (mixIntoKey testCrypto hsS2 (testCrypto.sharedKey [5] [11]))
    hsMsg.payload).getD ([], hsS2)).2

/-- Witness for C6 on a concrete successful handshake. -/
theorem processHandshake_spec_witness :
    decrypt testCrypto hsS1 hsMsg.staticEnc = some ([11], hsS2) ∧
    decrypt testCrypto (mixIntoKey testCrypto hsS2 (testCrypto.sharedKey [5] [11]))
      hsMsg.payload = some ([11], hsS4) ∧
    processHandshake testCrypto [5] sPre hsMsg ⟨[13], [17]⟩
      = .ok ((encrypt testCrypto hsS4 [13]).1,
        mixIntoKey testCrypto (encrypt testCrypto hsS4 [13]).2
          (testCrypto.sharedKey [17] [7])) :=
  ⟨by decide, by decide,
    (processHandshake_spec testCrypto [5] sPre hsMsg ⟨[13], [17]⟩ [11] [11] hsS2 hsS4
      (by decide) (by decide)).2 (by decide)⟩

/-- The pre-finish state invariant that actually holds in the code: the two
keys agree and `readCounter` is still 0 (pre-finish operations only ever
advance `writeCounter`). -/
def PreInv (s : NoiseState) : Prop :=
  s.isFinished = false → s.encKey = s.decKey ∧ s.readCounter = 0

lemma applyOp_preInv (C : Crypto) (s : NoiseState) (op : NoiseOp)
    (h : PreInv s) : PreInv (applyOp C s op) := by
  cases op with
  | auth d =>
    intro hf
    obtain ⟨he, hd, _, hr, _, hfin, _⟩ := authenticate_fields C s d
    rw [applyOp] at hf ⊢
    rw [he, hd, hr]
    exact h (hfin ▸ hf)
  | enc p =>
    intro hf
    obtain ⟨_, he, hd, _, _, hr, hfin, _⟩ := encrypt_fields C s p
    rw [applyOp] at hf ⊢
    rw [he, hd, hr]
    exact h (hfin ▸ hf)
  | dec ct =>
    intro hf
    rcases hr : decrypt C s ct with _ | ⟨pt, s'⟩
    · rw [applyOp_dec_none C s ct hr] at hf ⊢
      exact h hf
    · rw [applyOp_dec_some C s ct pt s' hr] at hf ⊢
      obtain ⟨he, hd, _, hfin, _, _, _, hF⟩ := decrypt_fields C s ct pt s' hr
      rw [he, hd, (hF (hfin ▸ hf)).2.1]
      exact h (hfin ▸ hf)
  | mix m =>
    intro _
    obtain ⟨_, he, hd, hr, _⟩ := mixIntoKey_fields C s m
    rw [applyOp]
    rw [he, hd, hr]
    exact ⟨rfl, rfl⟩
  | finish =>
    intro hf
    rw [applyOp] at hf
    rw [(finishInit_fields C s).2.2.2.2.2.2.1] at hf
    exact absurd hf (by simp)

lemma runOps_preInv (C : Crypto) (ops : List NoiseOp) : ∀ s : NoiseState,
    PreInv s → PreInv (runOps C s ops) := by
  induction ops with
  | nil => intro s h; exact h
  | cons op rest ih => intro s h; exact ih (applyOp C s op) (applyOp_preInv C s op h)

lemma makeNoiseHandler_preInv (C : Crypto) (noiseMode header publicKey : Bytes) :
    PreInv (makeNoiseHandler C noiseMode header publicKey) := by
  have h0 : PreInv
      ({ hash := (if noiseMode.length = 32 then noiseMode else C.sha256 noiseMode),
         salt := (if noiseMode.length = 32 then noiseMode else C.sha256 noiseMode),
         encKey := (if noiseMode.length = 32 then noiseMode else C.sha256 noiseMode),
         decKey := (if noiseMode.length = 32 then noiseMode else C.sha256 noiseMode),
         readCounter := 0, writeCounter := 0, isFinished := false,
         sentIntro := false, inBytes := [] } : NoiseState) :=
    fun _ => ⟨rfl, rfl⟩
  exact applyOp_preInv C _ (.auth publicKey) (applyOp_preInv C _ (.auth header) h0)

/-- C1 counterexample: from the freshly initialized handler, a single
pre-finish `encrypt` leaves the state unfinished with `readCounter = 0` but
`writeCounter = 1`, so the claimed invariant
`readCounter == writeCounter` fails while `finished` is false. -/
theorem preFinish_counter_divergence :
    (runOps testCrypto (makeNoiseHandler testCrypto (List.replicate 32 5) [87, 65, 6, 2]
      (List.replicate 32 9)) [.enc []]).isFinished = false ∧
    ¬ (runOps testCrypto (makeNoiseHandler testCrypto (List.replicate 32 5) [87, 65, 6, 2]
      (List.replicate 32 9)) [.enc []]).readCounter
      = (runOps testCrypto (makeNoiseHandler testCrypto (List.replicate 32 5) [87, 65, 6, 2]
      (List.replicate 32 9)) [.enc []]).writeCounter := by
  decide

/-- C1 (amended): after any sequence of operations from initialization, as
long as `finished` is still false, `encKey == decKey` holds and
`readCounter` is still 0 (the single pre-finish logical counter lives in
`writeCounter`; `readCounter == writeCounter` fails as soon as a pre-finish
encrypt or decrypt happens). -/
theorem preFinish_invariant (C : Crypto) (noiseMode header publicKey : Bytes)
    (ops : List NoiseOp)
    (hfin : (runOps C (makeNoiseHandler C noiseMode header publicKey) ops).isFinished = false) :
    (runOps C (makeNoiseHandler C noiseMode header publicKey) ops).encKey
      = (runOps C (makeNoiseHandler C noiseMode header publicKey) ops).decKey ∧
    (runOps C (makeNoiseHandler C noiseMode header publicKey) ops).readCounter = 0 :=
  runOps_preInv C ops _ (makeNoiseHandler_preInv C noiseMode header publicKey) hfin

/-- Witness for C1 (amended) after one pre-finish encrypt. -/
theorem preFinish_invariant_witness :
    (runOps testCrypto (makeNoiseHandler testCrypto (List.replicate 32 5) [87, 65, 6, 2]
      (List.replicate 32 9)) [.enc [1]]).isFinished = false ∧
    (runOps testCrypto (makeNoiseHandler testCrypto (List.replicate 32 5) [87, 65, 6, 2]
      (List.replicate 32 9)) [.enc [1]]).encKey
      = (runOps testCrypto (makeNoiseHandler testCrypto (List.replicate 32 5) [87, 65, 6, 2]
      (List.replicate 32 9)) [.enc [1]]).decKey ∧
    (runOps testCrypto (makeNoiseHandler testCrypto (List.replicate 32 5) [87, 65, 6, 2]
      (List.replicate 32 9)) [.enc [1]]).readCounter = 0 :=
  ⟨by decide, preFinish_invariant testCrypto (List.replicate 32 5) [87, 65, 6, 2]
    (List.replicate 32 9) [.enc [1]] (by decide)⟩

lemma jsSlice_split (l : Bytes) (n : Nat) (h : l.length = n + 16) :
    jsSliceTo l ((l.length : Int) - (TAG_LENGTH : Int)) = l.take n ∧
    jsSliceFrom l ((l.length : Int) - (TAG_LENGTH : Int)) = l.drop n := by
  have hidx : jsIndex l.length ((l.length : Int) - (TAG_LENGTH : Int)) = n := by
    have hT : TAG_LENGTH = 16 := rfl
    simp only [jsIndex, hT, h]
    rw [if_neg (by omega)]
    omega
  exact ⟨by rw [jsSliceTo, hidx], by rw [jsSliceFrom, hidx]⟩

lemma decrypt_of_aesDec (C : Crypto) (s : NoiseState) (ct pt : Bytes)
    (h : C.aesDec s.decKey
      (generateIV (if s.isFinished then s.readCounter else s.writeCounter)) s.hash
      (jsSliceTo ct ((ct.length : Int) - (TAG_LENGTH : Int)))
      (jsSliceFrom ct ((ct.length : Int) - (TAG_LENGTH : Int))) = some pt) :
    decrypt C s ct = some (pt, authenticate C
      (if s.isFinished then { s with readCounter := s.readCounter + 1 }
       else { s with writeCounter := s.writeCounter + 1 }) ct) := by
  simp only [decrypt, h]

lemma testCrypto_GoodAEAD (k iv aad pt : Bytes) :
    (testCrypto.aesEnc k iv aad pt).length = pt.length + 16 ∧
    testCrypto.aesDec k iv aad ((testCrypto.aesEnc k iv aad pt).take pt.length)
      ((testCrypto.aesEnc k iv aad pt).drop pt.length) = some pt := by
  refine ⟨testCrypto_aesEnc_len k iv aad pt, ?_⟩
  show testCrypto.aesDec k iv aad ((pt ++ tag16 k iv aad).take pt.length)
    ((pt ++ tag16 k iv aad).drop pt.length) = some pt
  rw [List.take_left, List.drop_left]
  simp [testCrypto]

lemma decodeLoop_nil (C : Crypto) (u : NoiseState) (h : u.inBytes = []) :
    decodeLoop C u = ([], u, false) := by
  rw [decodeLoop, h]
  rfl

lemma getBytesSize_append (L : Nat) (d rest : Bytes) :
    getBytesSize (frameBytes L d ++ rest) = some L := by
  simp only [frameBytes, List.cons_append, getBytesSize, Option.some.injEq, shiftRight16]
  omega

lemma decodeLoop_stall (C : Crypto) (t : NoiseState) (L : Nat) (d rest : Bytes)
    (hd : d.length = L) (hbuf : t.inBytes ++ rest = frameBytes L d) (hrest : rest ≠ []) :
    decodeLoop C t = ([], t, false) := by
  rcases hp : t.inBytes with _ | ⟨a, _ | ⟨b, _ | ⟨c, tl⟩⟩⟩
  · exact decodeLoop_nil C t hp
  · rw [decodeLoop, hp]; rfl
  · rw [decodeLoop, hp]; rfl
  · rw [hp] at hbuf
    simp only [frameBytes, List.cons_append, List.cons.injEq] at hbuf
    obtain ⟨ha, hb, hc, htl⟩ := hbuf
    have hlen : tl.length + rest.length = L := by
      have := congrArg List.length htl
      simp only [List.length_append] at this
      omega
    have hrl : 1 ≤ rest.length := by
      cases hrx : rest
      · exact absurd hrx hrest
      · simp [hrx]
    rw [decodeLoop, hp]
    simp only [getBytesSize]
    rw [dif_neg]
    intro hcon
    obtain ⟨h1, h2⟩ := hcon
    subst ha hb hc
    rw [shiftRight16] at h1 h2
    simp only [List.length_cons] at h2
    omega

lemma decodeLoop_cons_raw (C : Crypto) (t : NoiseState) (L : Nat) (d rest : Bytes)
    (hfin : t.isFinished = false) (hL0 : L ≠ 0) (hd : d.length = L)
    (hbuf : t.inBytes = frameBytes L d ++ rest) :
    decodeLoop C t = (d :: (decodeLoop C { t with inBytes := rest }).1,
      (decodeLoop C { t with inBytes := rest }).2.1,
      (decodeLoop C { t with inBytes := rest }).2.2) := by
  have hflen : (frameBytes L d).length = L + 3 := by rw [frameBytes_length, hd]
  have htake : ((frameBytes L d ++ rest).take (L + 3)).drop 3 = d := by
    rw [← hflen, List.take_left, frameBytes_drop_three]
  have hdrop : (frameBytes L d ++ rest).drop (L + 3) = rest := by
    rw [← hflen, List.drop_left]
  rw [decodeLoop, hbuf]
  simp only [getBytesSize_append]
  rw [dif_pos ⟨hL0, by rw [List.length_append, hflen]; omega⟩]
  rw [hfin]
  simp only [Bool.false_eq_true, if_false, htake, hdrop]

lemma decodeLoop_cons_enc (C : Crypto) (t : NoiseState) (L : Nat) (d rest pt : Bytes)
    (t' : NoiseState)
    (hfin : t.isFinished = true) (hL0 : L ≠ 0) (hd : d.length = L)
    (hbuf : t.inBytes = frameBytes L d ++ rest)
    (hdec : decrypt C { t with inBytes := rest } d = some (pt, t')) :
    decodeLoop C t = (C.decodeBinaryNode pt :: (decodeLoop C t').1,
      (decodeLoop C t').2.1, (decodeLoop C t').2.2) := by
  have hflen : (frameBytes L d).length = L + 3 := by rw [frameBytes_length, hd]
  have htake : ((frameBytes L d ++ rest).take (L + 3)).drop 3 = d := by
    rw [← hflen, List.take_left, frameBytes_drop_three]
  have hdrop : (frameBytes L d ++ rest).drop (L + 3) = rest := by
    rw [← hflen, List.drop_left]
  rw [decodeLoop, hbuf]
  simp only [getBytesSize_append]
  rw [dif_pos ⟨hL0, by rw [List.length_append, hflen]; omega⟩]
  rw [if_pos hfin]
  split
  · next hnone =>
    rw [htake, hdrop, hdec] at hnone
    exact absurd hnone (by simp)
  · next rs hsome =>
    rw [htake, hdrop, hdec] at hsome
    injection hsome with h
    subst h
    rfl

lemma decodeLoop_full_raw (C : Crypto) (t : NoiseState) (L : Nat) (d : Bytes)
    (hfin : t.isFinished = false) (hL0 : L ≠ 0) (hd : d.length = L)
    (hbuf : t.inBytes = frameBytes L d) :
    decodeLoop C t = ([d], { t with inBytes := [] }, false) := by
  have h1 := decodeLoop_cons_raw C t L d [] hfin hL0 hd (by rw [hbuf, List.append_nil])
  rw [h1, decodeLoop_nil C { t with inBytes := ([] : Bytes) } rfl]

lemma decodeLoop_full_enc (C : Crypto) (t : NoiseState) (L : Nat) (d pt : Bytes)
    (t' : NoiseState)
    (hfin : t.isFinished = true) (hL0 : L ≠ 0) (hd : d.length = L)
    (hbuf : t.inBytes = frameBytes L d)
    (hdec : decrypt C { t with inBytes := [] } d = some (pt, t')) :
    decodeLoop C t = ([C.decodeBinaryNode pt], t', false) := by
  have h1 := decodeLoop_cons_enc C t L d [] pt t' hfin hL0 hd
    (by rw [hbuf, List.append_nil]) hdec
  have ht' : t'.inBytes = [] :=
    (decrypt_fields C { t with inBytes := [] } d pt t' hdec).2.2.2.2.2.1
  rw [h1, decodeLoop_nil C t' ht']

lemma feedAll_empty (C : Crypto) (cs : List Bytes) : ∀ u : NoiseState,
    cs.flatten = [] → u.inBytes = [] → feedAll C u cs = ([], u, false) := by
  induction cs with
  | nil => intro u _ _; rfl
  | cons c cs ih =>
    intro u hflat hu
    rw [List.flatten_cons, List.append_eq_nil] at hflat
    obtain ⟨hc, hflat'⟩ := hflat
    subst hc
    have h1 : decodeFrame C u [] = ([], u, false) := by
      have he : ({ u with inBytes := u.inBytes ++ [] } : NoiseState) = u := by
        rw [List.append_nil]
      show decodeLoop C { u with inBytes := u.inBytes ++ [] } = ([], u, false)
      rw [he]
      exact decodeLoop_nil C u hu
    simp only [feedAll]
    rw [h1]
    show (([] : List Bytes) ++ (feedAll C u cs).1, (feedAll C u cs).2.1,
      false || (feedAll C u cs).2.2) = ([], u, false)
    rw [ih u hflat' hu]
    rfl

lemma feedAll_exact_raw (C : Crypto) (L : Nat) (d : Bytes) (u0 : NoiseState)
    (hL0 : L ≠ 0) (hd : d.length = L) (hfin : u0.isFinished = false) :
    ∀ (cs : List Bytes) (p : Bytes) (u : NoiseState), u = { u0 with inBytes := p } →
      p ++ cs.flatten = frameBytes L d → p ≠ frameBytes L d →
      feedAll C u cs = ([d], { u0 with inBytes := [] }, false) := by
  intro cs
  induction cs with
  | nil =>
    intro p u hu hsum hne
    rw [List.flatten_nil, List.append_nil] at hsum
    exact absurd hsum hne
  | cons c cs ih =>
    intro p u hu hsum hne
    subst hu
    rw [List.flatten_cons] at hsum
    have hsum' : (p ++ c) ++ cs.flatten = frameBytes L d := by
      rw [List.append_assoc]; exact hsum
    by_cases hp : p ++ c = frameBytes L d
    · have hflat : cs.flatten = [] := by
        rw [hp] at hsum'
        have hlen := congrArg List.length hsum'
        rw [List.length_append] at hlen
        exact List.length_eq_zero.mp (by omega)
      have h1 : decodeFrame C { u0 with inBytes := p } c
          = ([d], { u0 with inBytes := ([] : Bytes) }, false) := by
        show decodeLoop C { u0 with inBytes := p ++ c } = _
        exact decodeLoop_full_raw C { u0 with inBytes := p ++ c } L d hfin hL0 hd hp
      simp only [feedAll]
      rw [h1]
      show (([d] : List Bytes) ++ (feedAll C { u0 with inBytes := ([] : Bytes) } cs).1,
        (feedAll C { u0 with inBytes := ([] : Bytes) } cs).2.1,
        false || (feedAll C { u0 with inBytes := ([] : Bytes) } cs).2.2)
        = ([d], { u0 with inBytes := [] }, false)
      rw [feedAll_empty C cs { u0 with inBytes := ([] : Bytes) } hflat rfl]
      rfl
    · have hrest : cs.flatten ≠ [] := by
        intro hemp
        rw [hemp, List.append_nil] at hsum'
        exact hp hsum'
      have h1 : decodeFrame C { u0 with inBytes := p } c
          = ([], { u0 with inBytes := p ++ c }, false) := by
        show decodeLoop C { u0 with inBytes := p ++ c } = _
        exact decodeLoop_stall C { u0 with inBytes := p ++ c } L d cs.flatten hd hsum' hrest
      simp only [feedAll]
      rw [h1]
      show (([] : List Bytes) ++ (feedAll C { u0 with inBytes := p ++ c } cs).1,
        (feedAll C { u0 with inBytes := p ++ c } cs).2.1,
        false || (feedAll C { u0 with inBytes := p ++ c } cs).2.2)
        = ([d], { u0 with inBytes := [] }, false)
      rw [ih (p ++ c) { u0 with inBytes := p ++ c } rfl hsum' hp]
      rfl

lemma feedAll_exact_enc (C : Crypto) (L : Nat) (d pt : Bytes) (u0 t' : NoiseState)
    (hL0 : L ≠ 0) (hd : d.length = L) (hfin : u0.isFinished = true)
    (hu0 : u0.inBytes = []) (hdec : decrypt C u0 d = some (pt, t')) :
    ∀ (cs : List Bytes) (p : Bytes) (u : NoiseState), u = { u0 with inBytes := p } →
      p ++ cs.flatten = frameBytes L d → p ≠ frameBytes L d →
      feedAll C u cs = ([C.decodeBinaryNode pt], t', false) := by
  have ht' : t'.inBytes = [] := by
    rw [(decrypt_fields C u0 d pt t' hdec).2.2.2.2.2.1, hu0]
  intro cs
  induction cs with
  | nil =>
    intro p u hu hsum hne
    rw [List.flatten_nil, List.append_nil] at hsum
    exact absurd hsum hne
  | cons c cs ih =>
    intro p u hu hsum hne
    subst hu
    rw [List.flatten_cons] at hsum
    have hsum' : (p ++ c) ++ cs.flatten = frameBytes L d := by
      rw [List.append_assoc]; exact hsum
    by_cases hp : p ++ c = frameBytes L d
    · have hflat : cs.flatten = [] := by
        rw [hp] at hsum'
        have hlen := congrArg List.length hsum'
        rw [List.length_append] at hlen
        exact List.length_eq_zero.mp (by omega)
      have h1 : decodeFrame C { u0 with inBytes := p } c
          = ([C.decodeBinaryNode pt], t', false) := by
        show decodeLoop C { u0 with inBytes := p ++ c } = _
        refine decodeLoop_full_enc C { u0 with inBytes := p ++ c } L d pt t' hfin hL0 hd hp ?_
        have hst : ({ ({ u0 with inBytes := p ++ c } : NoiseState) with
            inBytes := ([] : Bytes) } : NoiseState) = u0 := by
          show ({ u0 with inBytes := ([] : Bytes) } : NoiseState) = u0
          rw [← hu0]
        rw [hst]
        exact hdec
      simp only [feedAll]
      rw [h1]
      show ((C.decodeBinaryNode pt :: []) ++ (feedAll C t' cs).1, (feedAll C t' cs).2.1,
        false || (feedAll C t' cs).2.2) = ([C.decodeBinaryNode pt], t', false)
      rw [feedAll_empty C cs t' hflat ht']
      rfl
    · have hrest : cs.flatten ≠ [] := by
        intro hemp
        rw [hemp, List.append_nil] at hsum'
        exact hp hsum'
      have h1 : decodeFrame C { u0 with inBytes := p } c
          = ([], { u0 with inBytes := p ++ c }, false) := by
        show decodeLoop C { u0 with inBytes := p ++ c } = _
        exact decodeLoop_stall C { u0 with inBytes := p ++ c } L d cs.flatten hd hsum' hrest
      simp only [feedAll]
      rw [h1]
      show (([] : List Bytes) ++ (feedAll C { u0 with inBytes := p ++ c } cs).1,
        (feedAll C { u0 with inBytes := p ++ c } cs).2.1,
        false || (feedAll C { u0 with inBytes := p ++ c } cs).2.2)
        = ([C.decodeBinaryNode pt], t', false)
      rw [ih (p ++ c) { u0 with inBytes := p ++ c } rfl hsum' hp]
      rfl

lemma encodeFrame_sentIntro (C : Crypto) (header : Bytes) (s : NoiseState) (data : Bytes) :
    (encodeFrame C header s data).2.sentIntro = true := by
  simp only [encodeFrame]
  split <;> first | rfl | (split <;> rfl)

lemma encodeFrame_isFinished (C : Crypto) (header : Bytes) (s : NoiseState) (data : Bytes) :
    (encodeFrame C header s data).2.isFinished = s.isFinished := by
  cases hfc : s.isFinished
  · simp only [encodeFrame, hfc, Bool.false_eq_true, if_false]
    split <;> rfl
  · have hx := (encrypt_fields C s data).2.2.2.2.2.2.1
    rw [hfc] at hx
    simp only [encodeFrame, hfc, eq_self_iff_true, if_true]
    split <;> exact hx

lemma encodeFrame_fin_fields (C : Crypto) (header : Bytes) (s : NoiseState) (data : Bytes)
    (hfin : s.isFinished = true) :
    (encodeFrame C header s data).2.encKey = s.encKey ∧
    (encodeFrame C header s data).2.writeCounter = s.writeCounter + 1 ∧
    (encodeFrame C header s data).2.hash = s.hash := by
  obtain ⟨_, he, _, _, hw, _, _, _, _, hh⟩ := encrypt_fields C s data
  rw [hfin] at hh
  simp only [eq_self_iff_true, if_true] at hh
  simp only [encodeFrame, hfin, eq_self_iff_true, if_true]
  exact ⟨by split <;> exact he, by split <;> exact hw, by split <;> exact hh⟩

lemma encodeFrame_some_noIntro (C : Crypto) (header P : Bytes) (s : NoiseState)
    (hintro : s.sentIntro = true)
    (hlen : (if s.isFinished then encrypt C s P else (P, s)).1.length < 16777216) :
    (encodeFrame C header s P).1
      = some (frameBytes (if s.isFinished then encrypt C s P else (P, s)).1.length
          (if s.isFinished then encrypt C s P else (P, s)).1) := by
  have hds2 : (if s.isFinished then encrypt C s P else (P, s)).2.sentIntro = s.sentIntro := by
    cases hfc : s.isFinished
    · simp
    · simp [(encrypt_fields C s P).2.2.2.2.2.2.2.1]
  simp only [encodeFrame]
  rw [if_neg (by rw [shiftRight16]; omega)]
  simp [hds2, hintro]

/-- C3 counterexample: an empty payload encoded before the handshake is
finished produces the frame `[0, 0, 0]`, whose zero length prefix is falsy
in the `while(size && ...)` loop, so `decodeFrame` never dispatches it:
`onFrame` fires zero times instead of exactly once. -/
theorem encode_decode_empty_stall :
    (encodeFrame testCrypto [87, 65, 6, 2] sPre []).1 = some [0, 0, 0] ∧
    (decodeFrame testCrypto sPre [0, 0, 0]).1 = [] ∧
    sPre.isFinished = false := by
  refine ⟨rfl, ?_, rfl⟩
  show (decodeLoop testCrypto { sPre with inBytes := [0, 0, 0] }).1 = []
  rw [decodeLoop]
  rfl

/-- C3 (amended): for a payload whose on-wire form is nonempty and below
2^24 bytes, encoded from a state whose intro preamble was already sent, and
fed in any chunking, in order, to a decoder whose inbound cipher state
matches the encoder's outbound state (same finished flag and, once
finished, inbound key, counter and transcript equal to the encoder's
outbound ones) with an empty accumulator, `onFrame` fires exactly once,
with the original payload (decrypted and passed through the
structured-message decoder when finished), and no decode error occurs. -/
theorem encode_decode_fragmentation (C : Crypto) (header P f : Bytes)
    (s t : NoiseState) (cs : List Bytes)
    (hAEAD : ∀ k iv aad pt, (C.aesEnc k iv aad pt).length = pt.length + 16 ∧
      C.aesDec k iv aad ((C.aesEnc k iv aad pt).take pt.length)
        ((C.aesEnc k iv aad pt).drop pt.length) = some pt)
    (hintro : s.sentIntro = true)
    (hfin : t.isFinished = s.isFinished)
    (hkey : s.isFinished = true →
      t.decKey = s.encKey ∧ t.readCounter = s.writeCounter ∧ t.hash = s.hash)
    (hbuf : t.inBytes = [])
    (hP : s.isFinished = false → P ≠ [])
    (hsize : (if s.isFinished then P.length + 16 else P.length) < 16777216)
    (hf : (encodeFrame C header s P).1 = some f)
    (hcs : cs.flatten = f) :
    (feedAll C t cs).1 = [if s.isFinished then C.decodeBinaryNode P else P] ∧
    (feedAll C t cs).2.2 = false := by
  cases hsf : s.isFinished
  · rw [hsf] at hsize hfin
    simp only [Bool.false_eq_true, if_false] at hsize ⊢
    have hP' : P ≠ [] := hP hsf
    have hL0 : P.length ≠ 0 := fun h => hP' (List.length_eq_zero.mp h)
    have hfe : (encodeFrame C header s P).1 = some (frameBytes P.length P) := by
      have h := encodeFrame_some_noIntro C header P s hintro
        (by rw [hsf]; simp only [Bool.false_eq_true, if_false]; exact hsize)
      rw [hsf] at h
      simp only [Bool.false_eq_true, if_false] at h
      exact h
    rw [hfe] at hf
    injection hf with hff
    subst hff
    have hfeed := feedAll_exact_raw C P.length P t hL0 rfl hfin cs [] t
      (by rw [← hbuf]) (by rw [List.nil_append]; exact hcs) (by simp [frameBytes])
    rw [hfeed]
    exact ⟨rfl, rfl⟩
  · rw [hsf] at hsize hfin
    simp only [eq_self_iff_true, if_true] at hsize ⊢
    obtain ⟨hdk, hrc, hhs⟩ := hkey hsf
    have hdw1 : (encrypt C s P).1
        = C.aesEnc s.encKey (generateIV s.writeCounter) s.hash P :=
      (encrypt_fields C s P).1
    have hdwlen : (encrypt C s P).1.length = P.length + 16 := by
      rw [hdw1]
      exact (hAEAD s.encKey (generateIV s.writeCounter) s.hash P).1
    have hfe : (encodeFrame C header s P).1
        = some (frameBytes (encrypt C s P).1.length (encrypt C s P).1) := by
      have h := encodeFrame_some_noIntro C header P s hintro
        (by rw [hsf]; simp only [eq_self_iff_true, if_true]; rw [hdwlen]; exact hsize)
      rw [hsf] at h
      simp only [eq_self_iff_true, if_true] at h
      exact h
    rw [hfe] at hf
    injection hf with hff
    subst hff
    have hsl := jsSlice_split (encrypt C s P).1 P.length hdwlen
    have hdecres : C.aesDec t.decKey
        (generateIV (if t.isFinished then t.readCounter else t.writeCounter)) t.hash
        (jsSliceTo (encrypt C s P).1 (((encrypt C s P).1.length : Int) - (TAG_LENGTH : Int)))
        (jsSliceFrom (encrypt C s P).1 (((encrypt C s P).1.length : Int) - (TAG_LENGTH : Int)))
        = some P := by
      rw [hsl.1, hsl.2, hdk, hhs, if_pos hfin, hrc, hdw1]
      exact (hAEAD s.encKey (generateIV s.writeCounter) s.hash P).2
    have hdec := decrypt_of_aesDec C t (encrypt C s P).1 P hdecres
    have hfeed := feedAll_exact_enc C (encrypt C s P).1.length (encrypt C s P).1 P t _
      (by rw [hdwlen]; omega) rfl hfin hbuf hdec cs [] t
      (by rw [← hbuf]) (by rw [List.nil_append]; exact hcs) (by simp [frameBytes])
    rw [hfeed]
    exact ⟨rfl, rfl⟩

/-- Witness for C3 (amended): a 2-byte pre-finish payload split into three
chunks is reassembled into exactly one frame. -/
theorem encode_decode_fragmentation_witness :
    (encodeFrame testCrypto [87, 65, 6, 2] sPre [1, 2]).1 = some [0, 0, 2, 1, 2] ∧
    ([[0], [0, 2, 1], [2]] : List Bytes).flatten = [0, 0, 2, 1, 2] ∧
    (feedAll testCrypto sPre [[0], [0, 2, 1], [2]]).1
      = [if sPre.isFinished then testCrypto.decodeBinaryNode [1, 2] else [1, 2]] ∧
    (feedAll testCrypto sPre [[0], [0, 2, 1], [2]]).2.2 = false :=
  ⟨rfl, rfl,
    (encode_decode_fragmentation testCrypto [87, 65, 6, 2] [1, 2] [0, 0, 2, 1, 2] sPre sPre
      [[0], [0, 2, 1], [2]] testCrypto_GoodAEAD rfl rfl
      (fun h => absurd h (by decide)) rfl (fun _ => by decide) (by decide) rfl rfl).1,
    (encode_decode_fragmentation testCrypto [87, 65, 6, 2] [1, 2] [0, 0, 2, 1, 2] sPre sPre
      [[0], [0, 2, 1], [2]] testCrypto_GoodAEAD rfl rfl
      (fun h => absurd h (by decide)) rfl (fun _ => by decide) (by decide) rfl rfl).2⟩

lemma decrypt_fin_eq (C : Crypto) (s : NoiseState) (ct pt : Bytes)
    (hfin : s.isFinished = true)
    (h : C.aesDec s.decKey (generateIV s.readCounter) s.hash
      (jsSliceTo ct ((ct.length : Int) - (TAG_LENGTH : Int)))
      (jsSliceFrom ct ((ct.length : Int) - (TAG_LENGTH : Int))) = some pt) :
    decrypt C s ct = some (pt, { s with readCounter := s.readCounter + 1 }) := by
  have h' : C.aesDec s.decKey
      (generateIV (if s.isFinished then s.readCounter else s.writeCounter)) s.hash
      (jsSliceTo ct ((ct.length : Int) - (TAG_LENGTH : Int)))
      (jsSliceFrom ct ((ct.length : Int) - (TAG_LENGTH : Int))) = some pt := by
    rw [if_pos hfin]; exact h
  rw [decrypt_of_aesDec C s ct pt h', if_pos hfin,
    authenticate_finished C { s with readCounter := s.readCounter + 1 } ct hfin]

/-- C4 counterexample: concatenating the frames of an empty payload and of
`[1]`, both encoded pre-finish, and feeding them in one `decodeFrame` call
dispatches zero frames instead of two, because the leading zero-length
prefix stops the drain loop. -/
theorem coalesced_empty_stall :
    (encodeFrame testCrypto [87, 65, 6, 2] sPre []).1 = some [0, 0, 0] ∧
    (encodeFrame testCrypto [87, 65, 6, 2]
      (encodeFrame testCrypto [87, 65, 6, 2] sPre []).2 [1]).1 = some [0, 0, 1, 1] ∧
    (decodeFrame testCrypto sPre ([0, 0, 0] ++ [0, 0, 1, 1])).1 = [] := by
  refine ⟨rfl, rfl, ?_⟩
  show (decodeLoop testCrypto { sPre with inBytes := [0, 0, 0, 0, 0, 1, 1] }).1 = []
  rw [decodeLoop]
  rfl

/-- C4 (amended): for two payloads whose on-wire forms are nonempty and
below 2^24 bytes, encoded in sequence from a state whose intro preamble was
already sent, feeding the concatenation of the two frames to `decodeFrame`
in a single call (on a matching decoder state with empty accumulator)
dispatches exactly two frames, in order, with the two payloads (each
decrypted and passed through the structured-message decoder when
finished). -/
theorem coalesced_two_frames (C : Crypto) (header P1 P2 f1 f2 : Bytes)
    (s t : NoiseState)
    (hAEAD : ∀ k iv aad pt, (C.aesEnc k iv aad pt).length = pt.length + 16 ∧
      C.aesDec k iv aad ((C.aesEnc k iv aad pt).take pt.length)
        ((C.aesEnc k iv aad pt).drop pt.length) = some pt)
    (hintro : s.sentIntro = true)
    (hfin : t.isFinished = s.isFinished)
    (hkey : s.isFinished = true →
      t.decKey = s.encKey ∧ t.readCounter = s.writeCounter ∧ t.hash = s.hash)
    (hbuf : t.inBytes = [])
    (hP1 : s.isFinished = false → P1 ≠ [])
    (hP2 : s.isFinished = false → P2 ≠ [])
    (hs1 : (if s.isFinished then P1.length + 16 else P1.length) < 16777216)
    (hs2 : (if s.isFinished then P2.length + 16 else P2.length) < 16777216)
    (hf1 : (encodeFrame C header s P1).1 = some f1)
    (hf2 : (encodeFrame C header (encodeFrame C header s P1).2 P2).1 = some f2) :
    (decodeFrame C t (f1 ++ f2)).1
      = [if s.isFinished then C.decodeBinaryNode P1 else P1,
         if s.isFinished then C.decodeBinaryNode P2 else P2] ∧
    (decodeFrame C t (f1 ++ f2)).2.2 = false := by
  have hs1fin : (encodeFrame C header s P1).2.isFinished = s.isFinished :=
    encodeFrame_isFinished C header s P1
  have hs1intro : (encodeFrame C header s P1).2.sentIntro = true :=
    encodeFrame_sentIntro C header s P1
  have hDF : decodeFrame C t (f1 ++ f2) = decodeLoop C { t with inBytes := f1 ++ f2 } := by
    show decodeLoop C { t with inBytes := t.inBytes ++ (f1 ++ f2) } = _
    rw [hbuf]
    rfl
  cases hsf : s.isFinished
  · rw [hsf] at hs1 hs2 hfin hs1fin
    simp only [Bool.false_eq_true, if_false] at hs1 hs2 ⊢
    have hL1 : P1.length ≠ 0 := fun h => hP1 hsf (List.length_eq_zero.mp h)
    have hL2 : P2.length ≠ 0 := fun h => hP2 hsf (List.length_eq_zero.mp h)
    have hfe1 : (encodeFrame C header s P1).1 = some (frameBytes P1.length P1) := by
      have h := encodeFrame_some_noIntro C header P1 s hintro
        (by rw [hsf]; simp only [Bool.false_eq_true, if_false]; exact hs1)
      rw [hsf] at h
      simp only [Bool.false_eq_true, if_false] at h
      exact h
    have hfe2 : (encodeFrame C header (encodeFrame C header s P1).2 P2).1
        = some (frameBytes P2.length P2) := by
      have h := encodeFrame_some_noIntro C header P2 (encodeFrame C header s P1).2 hs1intro
        (by rw [hs1fin]; simp only [Bool.false_eq_true, if_false]; exact hs2)
      rw [hs1fin] at h
      simp only [Bool.false_eq_true, if_false] at h
      exact h
    rw [hfe1] at hf1
    rw [hfe2] at hf2
    injection hf1 with hff1
    injection hf2 with hff2
    rw [hDF]
    rw [decodeLoop_cons_raw C { t with inBytes := f1 ++ f2 } P1.length P1 f2 hfin hL1 rfl
      (by show f1 ++ f2 = frameBytes P1.length P1 ++ f2; rw [hff1])]
    rw [decodeLoop_full_raw C
      { ({ t with inBytes := f1 ++ f2 } : NoiseState) with inBytes := f2 }
      P2.length P2 hfin hL2 rfl (by show f2 = frameBytes P2.length P2; rw [hff2])]
    exact ⟨rfl, rfl⟩
  · rw [hsf] at hs1 hs2 hfin hs1fin
    simp only [eq_self_iff_true, if_true] at hs1 hs2 ⊢
    obtain ⟨hdk, hrc, hhs⟩ := hkey hsf
    obtain ⟨hek1, hwc1, hh1⟩ := encodeFrame_fin_fields C header s P1 hsf
    have hdw1 : (encrypt C s P1).1
        = C.aesEnc s.encKey (generateIV s.writeCounter) s.hash P1 :=
      (encrypt_fields C s P1).1
    have hdw1len : (encrypt C s P1).1.length = P1.length + 16 := by
      rw [hdw1]; exact (hAEAD s.encKey (generateIV s.writeCounter) s.hash P1).1
    have hdw2 : (encrypt C (encodeFrame C header s P1).2 P2).1
        = C.aesEnc s.encKey (generateIV (s.writeCounter + 1)) s.hash P2 := by
      rw [(encrypt_fields C (encodeFrame C header s P1).2 P2).1, hek1, hwc1, hh1]
    have hdw2len : (encrypt C (encodeFrame C header s P1).2 P2).1.length
        = P2.length + 16 := by
      rw [hdw2]; exact (hAEAD s.encKey (generateIV (s.writeCounter + 1)) s.hash P2).1
    have hfe1 : (encodeFrame C header s P1).1
        = some (frameBytes (encrypt C s P1).1.length (encrypt C s P1).1) := by
      have h := encodeFrame_some_noIntro C header P1 s hintro
        (by rw [hsf]; simp only [eq_self_iff_true, if_true]; rw [hdw1len]; exact hs1)
      rw [hsf] at h
      simp only [eq_self_iff_true, if_true] at h
      exact h
    have hfe2 : (encodeFrame C header (encodeFrame C header s P1).2 P2).1
        = some (frameBytes (encrypt C (encodeFrame C header s P1).2 P2).1.length
            (encrypt C (encodeFrame C header s P1).2 P2).1) := by
      have h := encodeFrame_some_noIntro C header P2 (encodeFrame C header s P1).2 hs1intro
        (by rw [hs1fin]; simp only [eq_self_iff_true, if_true]; rw [hdw2len]; exact hs2)
      rw [hs1fin] at h
      simp only [eq_self_iff_true, if_true] at h
      exact h
    rw [hfe1] at hf1
    rw [hfe2] at hf2
    injection hf1 with hff1
    injection hf2 with hff2
    have hsl1 := jsSlice_split (encrypt C s P1).1 P1.length hdw1len
    have hsl2 := jsSlice_split (encrypt C (encodeFrame C header s P1).2 P2).1
      P2.length hdw2len
    have hdec1 : decrypt C { t with inBytes := f2 } (encrypt C s P1).1
        = some (P1, { t with readCounter := t.readCounter + 1, inBytes := f2 }) := by
      refine decrypt_fin_eq C { t with inBytes := f2 } (encrypt C s P1).1 P1 hfin ?_
      show C.aesDec t.decKey (generateIV t.readCounter) t.hash
        (jsSliceTo (encrypt C s P1).1 (((encrypt C s P1).1.length : Int) - (TAG_LENGTH : Int)))
        (jsSliceFrom (encrypt C s P1).1 (((encrypt C s P1).1.length : Int) - (TAG_LENGTH : Int)))
        = some P1
      rw [hsl1.1, hsl1.2, hdk, hhs, hrc, hdw1]
      exact (hAEAD s.encKey (generateIV s.writeCounter) s.hash P1).2
    have hdec2 : decrypt C
        { t with readCounter := t.readCounter + 1, inBytes := ([] : Bytes) }
        (encrypt C (encodeFrame C header s P1).2 P2).1
        = some (P2,
          { t with readCounter := t.readCounter + 1 + 1, inBytes := ([] : Bytes) }) := by
      refine decrypt_fin_eq C
        { t with readCounter := t.readCounter + 1, inBytes := ([] : Bytes) }
        (encrypt C (encodeFrame C header s P1).2 P2).1 P2 hfin ?_
      show C.aesDec t.decKey (generateIV (t.readCounter + 1)) t.hash
        (jsSliceTo (encrypt C (encodeFrame C header s P1).2 P2).1
          (((encrypt C (encodeFrame C header s P1).2 P2).1.length : Int) - (TAG_LENGTH : Int)))
        (jsSliceFrom (encrypt C (encodeFrame C header s P1).2 P2).1
          (((encrypt C (encodeFrame C header s P1).2 P2).1.length : Int) - (TAG_LENGTH : Int)))
        = some P2
      rw [hsl2.1, hsl2.2, hdk, hhs, hrc, hdw2]
      exact (hAEAD s.encKey (generateIV (s.writeCounter + 1)) s.hash P2).2
    rw [hDF]
    rw [decodeLoop_cons_enc C { t with inBytes := f1 ++ f2 }
      (encrypt C s P1).1.length (encrypt C s P1).1 f2 P1
      { t with readCounter := t.readCounter + 1, inBytes := f2 }
      hfin (by rw [hdw1len]; omega) rfl
      (by show f1 ++ f2 = frameBytes (encrypt C s P1).1.length (encrypt C s P1).1 ++ f2
          rw [hff1])
      hdec1]
    rw [decodeLoop_full_enc C
      { t with readCounter := t.readCounter + 1, inBytes := f2 }
      (encrypt C (encodeFrame C header s P1).2 P2).1.length
      (encrypt C (encodeFrame C header s P1).2 P2).1 P2
      { t with readCounter := t.readCounter + 1 + 1, inBytes := ([] : Bytes) }
      hfin (by rw [hdw2len]; omega) rfl
      (by show f2 = frameBytes (encrypt C (encodeFrame C header s P1).2 P2).1.length
            (encrypt C (encodeFrame C header s P1).2 P2).1
          rw [hff2])
      hdec2]
    exact ⟨rfl, rfl⟩

/-- Witness for C4 (amended): two pre-finish payloads coalesced into one
read dispatch as two frames in order. -/
theorem coalesced_two_frames_witness :
    (encodeFrame testCrypto [87, 65, 6, 2] sPre [1]).1 = some [0, 0, 1, 1] ∧
    (encodeFrame testCrypto [87, 65, 6, 2]
      (encodeFrame testCrypto [87, 65, 6, 2] sPre [1]).2 [2, 3]).1
      = some [0, 0, 2, 2, 3] ∧
    (decodeFrame testCrypto sPre ([0, 0, 1, 1] ++ [0, 0, 2, 2, 3])).1
      = [if sPre.isFinished then testCrypto.decodeBinaryNode [1] else [1],
         if sPre.isFinished then testCrypto.decodeBinaryNode [2, 3] else [2, 3]] ∧
    (decodeFrame testCrypto sPre ([0, 0, 1, 1] ++ [0, 0, 2, 2, 3])).2.2 = false :=
  ⟨rfl, rfl,
    (coalesced_two_frames testCrypto [87, 65, 6, 2] [1] [2, 3] [0, 0, 1, 1] [0, 0, 2, 2, 3]
      sPre sPre testCrypto_GoodAEAD rfl rfl (fun h => absurd h (by decide)) rfl
      (fun _ => by decide) (fun _ => by decide) (by decide) (by decide) rfl rfl).1,
    (coalesced_two_frames testCrypto [87, 65, 6, 2] [1] [2, 3] [0, 0, 1, 1] [0, 0, 2, 2, 3]
      sPre sPre testCrypto_GoodAEAD rfl rfl (fun h => absurd h (by decide)) rfl
      (fun _ => by decide) (fun _ => by decide) (by decide) (by decide) rfl rfl).2⟩

/-- Two AEAD events with no key/counter pair reuse between them. -/
abbrev EvDistinct (a b : Ev) : Prop := a.key ≠ b.key ∨ a.ctr ≠ b.ctr

/-- Lower bounds satisfied by every event emitted from state `s` at epoch
`ep`: its epoch is at least `ep`, and if it is still in epoch `ep` then its
finished flag and key are those of `s` and its counter is at least the
corresponding counter of `s`. -/
def EvBound (s : NoiseState) (ep : Nat) (e : Ev) : Prop :=
  ep ≤ e.epoch ∧
  (e.epoch = ep →
    e.fin = s.isFinished ∧
    (e.isEnc = true → e.key = s.encKey ∧ s.writeCounter ≤ e.ctr) ∧
    (e.isEnc = false → e.key = s.decKey ∧
      (s.isFinished = true → s.readCounter ≤ e.ctr) ∧
      (s.isFinished = false → s.writeCounter ≤ e.ctr)))

lemma evBound_mono {s s' : NoiseState} {ep : Nat} {e : Ev}
    (hfin : s'.isFinished = s.isFinished) (henc : s'.encKey = s.encKey)
    (hdec : s'.decKey = s.decKey) (hwc : s.writeCounter ≤ s'.writeCounter)
    (hrc : s.readCounter ≤ s'.readCounter) (h : EvBound s' ep e) : EvBound s ep e := by
  refine ⟨h.1, fun hep => ?_⟩
  obtain ⟨hf, hE, hD⟩ := h.2 hep
  refine ⟨by rw [hf, hfin], fun hie => ⟨by rw [(hE hie).1, henc], le_trans hwc (hE hie).2⟩,
    fun hie => ⟨by rw [(hD hie).1, hdec],
      fun ht => le_trans hrc ((hD hie).2.1 (by rw [hfin, ht])),
      fun hn => le_trans hwc ((hD hie).2.2 (by rw [hfin, hn]))⟩⟩

lemma evBound_next (s : NoiseState) (ep : Nat) (e : Ev) (s' : NoiseState)
    (h : EvBound s' (ep + 1) e) : EvBound s ep e :=
  ⟨by have := h.1; omega, fun hep => absurd hep (by have := h.1; omega)⟩

lemma ev_lower (C : Crypto) (ops : List NoiseOp) : ∀ (s : NoiseState) (ep : Nat),
    ∀ e ∈ events C s ep ops, EvBound s ep e := by
  induction ops with
  | nil => intro s ep e he; simp [events] at he
  | cons op rest ih =>
    intro s ep e he
    cases op with
    | auth d =>
      simp only [events, applyOp, List.nil_append] at he
      obtain ⟨he1, he2, _, hr, hw, hf, _⟩ := authenticate_fields C s d
      exact evBound_mono hf he1 he2 (le_of_eq hw.symm) (le_of_eq hr.symm) (ih _ _ e he)
    | enc p =>
      simp only [events, applyOp, List.singleton_append, List.mem_cons] at he
      rcases he with he | he
      · subst he
        exact ⟨le_refl ep, fun _ => ⟨rfl, fun _ => ⟨rfl, le_refl _⟩, fun hie => by simp at hie⟩⟩
      · obtain ⟨_, he1, he2, _, hw, hr, hf, _⟩ := encrypt_fields C s p
        exact evBound_mono hf he1 he2 (by rw [hw]; omega) (le_of_eq hr.symm) (ih _ _ e he)
    | dec ct =>
      rcases hr : decrypt C s ct with _ | ⟨pt, s'⟩
      · simp only [events, hr, Option.isSome_none, Bool.false_eq_true, if_false,
          List.nil_append] at he
        have hb := ih _ _ e he
        rw [applyOp_dec_none C s ct hr] at hb
        exact hb
      · simp only [events, hr, Option.isSome_some, if_true, List.singleton_append,
          List.mem_cons] at he
        rcases he with he | he
        · subst he
          refine ⟨le_refl ep, fun _ => ⟨rfl, fun hie => by simp at hie,
            fun _ => ⟨rfl, fun ht => ?_, fun hn => ?_⟩⟩⟩
          · simp only [ht, if_pos rfl]
            exact le_refl _
          · simp only [hn, Bool.false_eq_true, if_false]
            exact le_refl _
        · have hb := ih _ _ e he
          rw [applyOp_dec_some C s ct pt s' hr] at hb
          obtain ⟨he1, he2, _, hf, _, _, hT, hF⟩ := decrypt_fields C s ct pt s' hr
          cases hfc : s.isFinished
          · obtain ⟨hw, hrr, _⟩ := hF hfc
            exact evBound_mono hf he1 he2 (by omega) (by omega) hb
          · obtain ⟨hrr, hw, _⟩ := hT hfc
            exact evBound_mono hf he1 he2 (by omega) (by omega) hb
    | mix m =>
      simp only [events, applyOp, List.nil_append] at he
      exact evBound_next s ep e _ (ih _ _ e he)
    | finish =>
      simp only [events, applyOp, List.nil_append] at he
      exact evBound_next s ep e _ (ih _ _ e he)

lemma ev_pairwise (C : Crypto) (ops : List NoiseOp) : ∀ (s : NoiseState) (ep : Nat),
    (s.isFinished = false → s.encKey = s.decKey) →
    (∀ a ∈ events C s ep ops, ∀ b ∈ events C s ep ops,
      a.epoch ≠ b.epoch → a.key ≠ b.key) →
    (∀ a ∈ events C s ep ops, ∀ b ∈ events C s ep ops,
      a.epoch = b.epoch → a.fin = true → a.isEnc ≠ b.isEnc → a.key ≠ b.key) →
    (events C s ep ops).Pairwise EvDistinct := by
  induction ops with
  | nil => intro s ep _ _ _; simp [events]
  | cons op rest ih =>
    intro s ep hpre hep hdir
    cases op with
    | auth d =>
      simp only [events, applyOp, List.nil_append] at hep hdir ⊢
      obtain ⟨he1, he2, _, _, _, hf, _⟩ := authenticate_fields C s d
      exact ih _ _ (fun hn => by rw [he1, he2]; exact hpre (by rw [← hf]; exact hn)) hep hdir
    | enc p =>
      simp only [events, applyOp, List.singleton_append] at hep hdir ⊢
      rw [List.pairwise_cons]
      obtain ⟨_, he1, he2, _, hw, hr, hf, _⟩ := encrypt_fields C s p
      constructor
      · intro b hb
        have hbB := ev_lower C rest _ ep b hb
        by_cases hbe : b.epoch = ep
        · obtain ⟨hbf, hbE, hbD⟩ := hbB.2 hbe
          cases hbenc : b.isEnc
          · cases hfc : s.isFinished
            · right
              have hble := (hbD hbenc).2.2 (by rw [hf]; exact hfc)
              rw [hw] at hble
              simp only [ne_eq]
              omega
            · left
              exact hdir ⟨ep, s.isFinished, true, s.encKey, s.writeCounter⟩ (List.mem_cons_self _ _)
                b (List.mem_cons_of_mem _ hb) hbe.symm hfc (by simp [hbenc])
          · right
            have hble := (hbE hbenc).2
            rw [hw] at hble
            simp only [ne_eq]
            omega
        · left
          exact hep ⟨ep, s.isFinished, true, s.encKey, s.writeCounter⟩ (List.mem_cons_self _ _)
            b (List.mem_cons_of_mem _ hb) (fun hq => hbe hq.symm)
      · exact ih _ _ (fun hn => by rw [he1, he2]; exact hpre (by rw [← hf]; exact hn))
          (fun a ha b hb => hep a (List.mem_cons_of_mem _ ha) b (List.mem_cons_of_mem _ hb))
          (fun a ha b hb => hdir a (List.mem_cons_of_mem _ ha) b (List.mem_cons_of_mem _ hb))
    | dec ct =>
      rcases hr : decrypt C s ct with _ | ⟨pt, s'⟩
      · simp only [events, hr, Option.isSome_none, Bool.false_eq_true, if_false,
          List.nil_append] at hep hdir ⊢
        rw [applyOp_dec_none C s ct hr] at hep hdir ⊢
        exact ih _ _ hpre hep hdir
      · simp only [events, hr, Option.isSome_some, if_true, List.singleton_append] at hep hdir ⊢
        rw [List.pairwise_cons]
        obtain ⟨he1, he2, _, hf, _, _, hT, hF⟩ := decrypt_fields C s ct pt s' hr
        rw [applyOp_dec_some C s ct pt s' hr] at hep hdir ⊢
        constructor
        · intro b hb
          have hbB := ev_lower C rest _ ep b hb
          by_cases hbe : b.epoch = ep
          · obtain ⟨hbf, hbE, hbD⟩ := hbB.2 hbe
            cases hbenc : b.isEnc
            · right
              cases hfc : s.isFinished
              · have hble := (hbD hbenc).2.2 (by rw [hf]; exact hfc)
                rw [(hF hfc).1] at hble
                simp only [ne_eq, hfc, Bool.false_eq_true, if_false]
                omega
              · have hble := (hbD hbenc).2.1 (by rw [hf]; exact hfc)
                rw [(hT hfc).1] at hble
                simp only [ne_eq, hfc, eq_self_iff_true, if_true]
                omega
            · cases hfc : s.isFinished
              · right
                have hble := (hbE hbenc).2
                rw [(hF hfc).1] at hble
                simp only [ne_eq, hfc, Bool.false_eq_true, if_false]
                omega
              · left
                exact hdir ⟨ep, s.isFinished, false, s.decKey,
                    if s.isFinished then s.readCounter else s.writeCounter⟩
                  (List.mem_cons_self _ _) b (List.mem_cons_of_mem _ hb) hbe.symm hfc
                  (by simp [hbenc])
          · left
            exact hep ⟨ep, s.isFinished, false, s.decKey,
                if s.isFinished then s.readCounter else s.writeCounter⟩
              (List.mem_cons_self _ _) b (List.mem_cons_of_mem _ hb) (fun hq => hbe hq.symm)
        · exact ih _ _ (fun hn => by rw [he1, he2]; exact hpre (by rw [← hf]; exact hn))
            (fun a ha b hb => hep a (List.mem_cons_of_mem _ ha) b (List.mem_cons_of_mem _ hb))
            (fun a ha b hb => hdir a (List.mem_cons_of_mem _ ha) b (List.mem_cons_of_mem _ hb))
    | mix m =>
      simp only [events, applyOp, List.nil_append] at hep hdir ⊢
      obtain ⟨_, he1, he2, _, _, hf, _⟩ := mixIntoKey_fields C s m
      exact ih _ _ (fun _ => by rw [he1, he2]) hep hdir
    | finish =>
      simp only [events, applyOp, List.nil_append] at hep hdir ⊢
      exact ih _ _ (fun hn => absurd ((finishInit_fields C s).2.2.2.2.2.2.1.symm.trans hn)
        (by simp)) hep hdir

/-- C2: along any operation trace, successful encrypt/decrypt events never
reuse a key/counter pair: provided key mixes replace the keys across epochs
and the post-split directional keys differ, the collected events are
pairwise distinct in (key, counter); moreover each successful encrypt or
decrypt advances exactly its selected counter by one, `authenticate` leaves
both counters unchanged, and only the key-mix boundaries (`mixIntoKey`,
`finishInit`) reset counters to 0 (while replacing the keys). -/
theorem nonce_no_reuse (C : Crypto) (s : NoiseState) (ops : List NoiseOp) (ep : Nat)
    (hpre : s.isFinished = false → s.encKey = s.decKey)
    (hep : ∀ a ∈ events C s ep ops, ∀ b ∈ events C s ep ops,
      a.epoch ≠ b.epoch → a.key ≠ b.key)
    (hdir : ∀ a ∈ events C s ep ops, ∀ b ∈ events C s ep ops,
      a.epoch = b.epoch → a.fin = true → a.isEnc ≠ b.isEnc → a.key ≠ b.key) :
    (events C s ep ops).Pairwise EvDistinct ∧
    (∀ p, (applyOp C s (.enc p)).writeCounter = s.writeCounter + 1 ∧
      (applyOp C s (.enc p)).readCounter = s.readCounter) ∧
    (∀ ct pt s', decrypt C s ct = some (pt, s') →
      (s.isFinished = true → s'.readCounter = s.readCounter + 1 ∧
        s'.writeCounter = s.writeCounter) ∧
      (s.isFinished = false → s'.writeCounter = s.writeCounter + 1 ∧
        s'.readCounter = s.readCounter)) ∧
    (∀ d, (applyOp C s (.auth d)).readCounter = s.readCounter ∧
      (applyOp C s (.auth d)).writeCounter = s.writeCounter) ∧
    (∀ m, (applyOp C s (.mix m)).readCounter = 0 ∧
      (applyOp C s (.mix m)).writeCounter = 0 ∧
      (applyOp C s (.mix m)).encKey = (applyOp C s (.mix m)).decKey) ∧
    ((applyOp C s .finish).readCounter = 0 ∧ (applyOp C s .finish).writeCounter = 0) := by
  refine ⟨ev_pairwise C ops s ep hpre hep hdir, ?_, ?_, ?_, ?_, ?_⟩
  · intro p
    exact ⟨(encrypt_fields C s p).2.2.2.2.1, (encrypt_fields C s p).2.2.2.2.2.1⟩
  · intro ct pt s' h
    obtain ⟨_, _, _, _, _, _, hT, hF⟩ := decrypt_fields C s ct pt s' h
    exact ⟨fun ht => ⟨(hT ht).1, (hT ht).2.1⟩, fun hn => ⟨(hF hn).1, (hF hn).2.1⟩⟩
  · intro d
    exact ⟨(authenticate_fields C s d).2.2.2.1, (authenticate_fields C s d).2.2.2.2.1⟩
  · intro m
    obtain ⟨_, he1, he2, hrc, hwc, _⟩ := mixIntoKey_fields C s m
    exact ⟨hrc, hwc, by simp only [applyOp]; rw [he1, he2]⟩
  · exact ⟨(finishInit_fields C s).2.2.2.2.1, (finishInit_fields C s).2.2.2.2.2.1⟩

/-- Witness for C2 on a concrete finished-state trace crossing one key mix. -/
theorem nonce_no_reuse_witness :
    (sFin.isFinished = false → sFin.encKey = sFin.decKey) ∧
    (∀ a ∈ events testCrypto sFin 0 [.enc [1], .dec (8 :: List.replicate 16 37), .enc [], .mix [9], .enc [2]],
      ∀ b ∈ events testCrypto sFin 0 [.enc [1], .dec (8 :: List.replicate 16 37), .enc [], .mix [9], .enc [2]],
      a.epoch ≠ b.epoch → a.key ≠ b.key) ∧
    (∀ a ∈ events testCrypto sFin 0 [.enc [1], .dec (8 :: List.replicate 16 37), .enc [], .mix [9], .enc [2]],
      ∀ b ∈ events testCrypto sFin 0 [.enc [1], .dec (8 :: List.replicate 16 37), .enc [], .mix [9], .enc [2]],
      a.epoch = b.epoch → a.fin = true → a.isEnc ≠ b.isEnc → a.key ≠ b.key) ∧
    (events testCrypto sFin 0
      [.enc [1], .dec (8 :: List.replicate 16 37), .enc [], .mix [9], .enc [2]]).Pairwise EvDistinct :=
  ⟨by decide, by decide, by decide,
    (nonce_no_reuse testCrypto sFin
      [.enc [1], .dec (8 :: List.replicate 16 37), .enc [], .mix [9], .enc [2]] 0
      (by decide) (by decide) (by decide)).1⟩

/-- Witness for C5 on a concrete successful decryption. -/
theorem decrypt_spec_witness :
    decrypt testCrypto sFin (9 :: List.replicate 16 37)
      = some ([9], { sFin with readCounter := 6 }) ∧
    testCrypto.aesDec sFin.decKey
        (generateIV (if sFin.isFinished then sFin.readCounter else sFin.writeCounter)) sFin.hash
        (jsSliceTo (9 :: List.replicate 16 37) (((9 :: List.replicate 16 37).length : Int) - (TAG_LENGTH : Int)))
        (jsSliceFrom (9 :: List.replicate 16 37) (((9 :: List.replicate 16 37).length : Int) - (TAG_LENGTH : Int)))
      = some [9] :=
  ⟨by decide, (decrypt_spec testCrypto sFin (9 :: List.replicate 16 37) [9]
    { sFin with readCounter := 6 } (by decide)).1⟩

end Noise
